import Mathlib

/-
Verification of the BPE text-compression core of the bsides_badge repository.

The embedded code comes from two source files:
  * compilers/books.py  — flatten / inflate / compress (the BPE grammar
    builder) / sheer_stone (grammar serialization);
  * software/bsides25.py — text_decompress (the on-device stack-based
    decompressor) and the table layout read back in BooksScreen.read_books.

Characters and bytes are modelled as Nat (Python chars are code points,
symbols are ints).  Python exceptions (ValueError from list.index or
bytes(), IndexError from list indexing or out-of-range list assignment,
AssertionError) are modelled as Option/Except failures.
-/

/-! ### Small self-contained list helpers (Python list indexing / slicing) -/

/-- `l[i]` for Nat lists, with junk default 0 (used only in-bounds). -/
def getN : List Nat → Nat → Nat
  | [], _ => 0
  | x :: _, 0 => x
  | _ :: t, i + 1 => getN t i

/-- `l[i] = v` in place; out-of-range is a no-op here (the machine model
checks the bound separately before writing, as Python raises IndexError). -/
def setN : List Nat → Nat → Nat → List Nat
  | [], _, _ => []
  | _ :: t, 0, v => v :: t
  | x :: t, i + 1, v => x :: setN t i v

/-- `l[:n]` (truncating, as Python slices do). -/
def takeN : List Nat → Nat → List Nat
  | _, 0 => []
  | [], _ + 1 => []
  | x :: t, i + 1 => x :: takeN t i

/-- `l[n:]` (truncating, as Python slices do). -/
def dropN : List Nat → Nat → List Nat
  | l, 0 => l
  | [], _ + 1 => []
  | _ :: t, i + 1 => dropN t i

/-- Concatenation of `f` over a list (`''.join(map(f, l))`). -/
def flatMapN {α β : Type} (f : α → List β) : List α → List β
  | [] => []
  | a :: t => f a ++ flatMapN f t

/-- Last element of a list of Nat lists, `[]` if empty. -/
def lastD : List (List Nat) → List Nat
  | [] => []
  | [x] => x
  | _ :: y :: t => lastD (y :: t)

/-- All but the last element. -/
def butLast : List (List Nat) → List (List Nat)
  | [] => []
  | [_] => []
  | x :: y :: t => x :: butLast (y :: t)

/-- Lookup of a pair table entry, `none` out of range (Python IndexError). -/
def getPair : List (Nat × Nat) → Nat → Option (Nat × Nat)
  | [], _ => none
  | p :: _, 0 => some p
  | _ :: t, i + 1 => getPair t i

/-- Pair table entry with junk default (used only in-bounds). -/
def pairN : List (Nat × Nat) → Nat → (Nat × Nat)
  | [], _ => (0, 0)
  | p :: _, 0 => p
  | _ :: t, i + 1 => pairN t i

/-! ### The document tree (books.py hierarchy)

A Python object passed to `flatten` / `inflate` / `compile` is either a
`str` leaf (here: its list of character codes), a 2-tuple `(name, child)`
(here: `named`), or a list of children.  A Python list `[a, b, c]` is
embedded as the chain `cons a (cons b (cons c nil))`. -/

inductive Doc where
  | leaf : List Nat → Doc
  | named : List Nat → Doc → Doc
  | nil : Doc
  | cons : Doc → Doc → Doc
deriving DecidableEq

/-- books.py line 38: the out-of-band delimiter symbol id. -/
def CHUNKS_DELIMITER : Nat := 300

/-- books.py `flatten`: a leaf is its text, a tuple flattens its second
component, a list is the join of its flattened elements with the `'\0'`
character (code 0) inserted after each element, the trailing one removed
(`''.join([flatten(e) + '\0' for e in obj])[:-1]`).  On the cons-chain
embedding that join-then-drop-last takes the recursive form below;
`flattenD_chain` proves it equal to the literal join/dropLast form. -/
def flattenD : Doc → List Nat
  | .leaf s => s
  | .named _ d => flattenD d
  | .nil => []
  | .cons d .nil => flattenD d
  | .cons d r => flattenD d ++ 0 :: flattenD r

/-- The children of a collection chain, as a meta-level list. -/
def chainToList : Doc → List Doc
  | .nil => []
  | .cons d r => d :: chainToList r
  | d => [d]

/-- `''.join([x + '\0' for x in l])`. -/
def joinDelim : List (List Nat) → List Nat
  | [] => []
  | x :: t => (x ++ [0]) ++ joinDelim t

/-- books.py `compress` line 81: `char_to_id` maps every corpus character to
its index in the sorted alphabet, then remaps `'\0'` to `CHUNKS_DELIMITER`. -/
def charToId (inits : List Nat) (c : Nat) : Nat :=
  if c = 0 then CHUNKS_DELIMITER else inits.indexOf c

/-- The identity-alphabet instance of `char_to_id`: byte values stand for
themselves and the `'\0'` character becomes the delimiter symbol.  Used to
state the flatten/inflate round trip, where symbols are read back as
literal bytes. -/
def toSyms : List Nat → List Nat
  | [] => []
  | c :: t => (if c = 0 then CHUNKS_DELIMITER else c) :: toSyms t

/-- books.py `inflate`, leaf case: `p = flattened.index(CHUNKS_DELIMITER)`
(ValueError = `none` when absent), returning the prefix before the first
delimiter and the rest after it. -/
def splitDelim : List Nat → Option (List Nat × List Nat)
  | [] => none
  | c :: t =>
    if c = CHUNKS_DELIMITER then some ([], t)
    else (splitDelim t).map (fun p => (c :: p.1, p.2))

/-- books.py `inflate`: walk the shape, each leaf consumes symbols up to the
next delimiter (`bytes(flattened[:p])` also requires every symbol < 256,
else Python `bytes` raises), a tuple inflates its second component and keeps
its name, a list inflates its elements in order threading the sequence. -/
def inflateD : Doc → List Nat → Option (Doc × List Nat)
  | .leaf _, fl =>
    match splitDelim fl with
    | none => none
    | some (a, b) => if a.all (fun c => decide (c < 256)) then some (.leaf a, b) else none
  | .named n d, fl =>
    match inflateD d fl with
    | none => none
    | some (g, r) => some (.named n g, r)
  | .nil, fl => some (.nil, fl)
  | .cons d r, fl =>
    match inflateD d fl with
    | none => none
    | some (gd, fl1) =>
      match inflateD r fl1 with
      | none => none
      | some (gr2, fl2) => some (.cons gd gr2, fl2)

/-- Sanity condition for the round-trip statement: every leaf is nonempty of
NUL-free byte text (0 < c < 256, i.e. sanitized literal bytes) and no
collection node is empty (an empty Python list contributes a delimiter to
`flatten` but consumes nothing in `inflate`). -/
def goodB : Doc → Bool
  | .leaf s => s.all (fun c => decide (0 < c) && decide (c < 256))
  | .named _ d => goodB d
  | .nil => false
  | .cons d .nil => goodB d
  | .cons d (.cons e r) => goodB d && goodB (.cons e r)
  | .cons _ _ => false

/-! ### The BPE grammar builder (books.py `compress`, lines 77-115) -/

/-- Ordered insertion keeping elements distinct; folding it gives Python's
`sorted(set(l))`. -/
def insortD (x : Nat) : List Nat → List Nat
  | [] => [x]
  | y :: t =>
    if x < y then x :: y :: t
    else if x = y then y :: t
    else y :: insortD x t

/-- `sorted(set(l))`: the sorted list of distinct elements. -/
def sortedDedup (l : List Nat) : List Nat := l.foldr insortD []

/-- The adjacent pairs of a sequence (the sliding window of 2 that
`Counter((seq[i], seq[i+1]) for i in range(len(seq)-1))` counts). -/
def pairsOf (seq : List Nat) : List (Nat × Nat) := seq.zip seq.tail

/-- Occurrence count of a pair in the pair list. -/
def countOcc (l : List (Nat × Nat)) (x : Nat × Nat) : Nat :=
  match l with
  | [] => 0
  | y :: t => (if y = x then 1 else 0) + countOcc t x

/-- Distinct pairs in order of first occurrence (a Python `Counter` iterates
in insertion order). -/
def foAux (acc : List (Nat × Nat)) : List (Nat × Nat) → List (Nat × Nat)
  | [] => acc
  | x :: t => if x ∈ acc then foAux acc t else foAux (acc ++ [x]) t

/-- The head of `Counter(ps).most_common()`: the pair with the largest
count, earliest first occurrence winning ties (CPython's `most_common` is a
stable descending sort of the insertion-ordered items).  Note books.py
lines 92-94 then walk this list with the guard `if b'\0' not in group:
break`; `group` is a tuple of ints and `b'\0'` a bytes object, so the
membership test is always false and the guard always breaks at the first
pair — the intended delimiter filter never rejects anything.  The selection
is therefore exactly this head. -/
def chooseMax (ps : List (Nat × Nat)) : Option (Nat × Nat) :=
  match foAux [] ps with
  | [] => none
  | x :: t => some (t.foldl (fun best y => if countOcc ps best < countOcc ps y then y else best) x)

/-- books.py lines 101-112, one rewrite pass from index `i`: while
`i < len(seq)`, if `seq[i] == group0 and seq[i:i+ln] == group` emit the new
id and advance by `ln`, else copy `seq[i]` and advance by one.  The group is
given as `g0 :: gr` (the code reads `group[0]`, so it is nonempty).  Fuel
counts loop iterations; `seq.length` always suffices since `i` grows by at
least one. -/
def rewriteFrom (seq : List Nat) (g0 : Nat) (gr : List Nat) (nid : Nat) : Nat → Nat → List Nat
  | 0, _ => []
  | fuel + 1, i =>
    if i < seq.length then
      if getN seq i = g0 ∧ takeN (dropN seq i) (gr.length + 1) = g0 :: gr then
        nid :: rewriteFrom seq g0 gr nid fuel (i + (gr.length + 1))
      else
        getN seq i :: rewriteFrom seq g0 gr nid fuel (i + 1)
    else []

/-- One full rewrite pass of the builder. -/
def rewriteAll (seq : List Nat) (g0 : Nat) (gr : List Nat) (nid : Nat) : List Nat :=
  rewriteFrom seq g0 gr nid seq.length 0

/-- books.py lines 90-114, the builder loop with `forced = []`: while
`len(initial_chars) + len(rules) < max_tokens`, select the most frequent
pair (see `chooseMax`), falling back to the Python variable `group` left
over from the previous iteration when the sequence has no adjacent pair at
all (`none` models the NameError when there is no previous value), record
it under the fresh id `len(initial_chars) + len(rules)` and rewrite the
sequence.  Fuel `max_tokens` always suffices because every iteration adds
exactly one rule. -/
def bpeLoop (n maxT : Nat) : Nat → List Nat → List (Nat × Nat) → Option (Nat × Nat) →
    Option (List (Nat × Nat) × List Nat)
  | 0, seq, rules, _ =>
    if n + rules.length < maxT then none else some (rules, seq)
  | fuel + 1, seq, rules, last =>
    if n + rules.length < maxT then
      match (chooseMax (pairsOf seq)).orElse (fun _ => last) with
      | none => none
      | some (a, b) =>
        bpeLoop n maxT fuel (rewriteAll seq a [b] (n + rules.length))
          (rules ++ [(a, b)]) (some (a, b))
    else some (rules, seq)

/-- books.py `compress`, grammar-building part (lines 78-114): the corpus is
`flatten(books) + '\0'`, the alphabet is `sorted(set(corpus))`, the
sequence maps every character through `char_to_id`, then the builder loop
runs.  Returns (initial_chars, rules in creation order, rewritten seq);
rule `j` carries symbol id `initial_chars.length + j`. -/
def buildGrammar (books : Doc) (maxT : Nat) :
    Option (List Nat × List (Nat × Nat) × List Nat) :=
  let corpus := flattenD books ++ [0]
  let inits := sortedDedup corpus
  let seq := corpus.map (charToId inits)
  (bpeLoop inits.length maxT maxT seq [] none).map (fun p => (inits, p.1, p.2))

/-! ### Grammar serialization (books.py `sheer_stone`, lines 66-74) -/

/-- Python `str.encode()` of a single character (UTF-8). -/
def utf8Enc (c : Nat) : List Nat :=
  if c < 128 then [c]
  else if c < 2048 then [192 + c / 64, 128 + c % 64]
  else if c < 65536 then [224 + c / 4096, 128 + (c / 64) % 64, 128 + c % 64]
  else [240 + c / 262144, 128 + (c / 4096) % 64, 128 + (c / 64) % 64, 128 + c % 64]

/-- `bytearray(r)` for each rule in order: every element must be a byte
(0 ≤ x < 256, else Python raises ValueError).  The `assert len(r) == 2`
holds by the pair type (with `forced = []` every recorded group is a
2-tuple). -/
def packRules : List (Nat × Nat) → Option (List Nat)
  | [] => some []
  | (l, r) :: t =>
    if l < 256 ∧ r < 256 then (packRules t).map (fun b => l :: r :: b) else none

/-- books.py `sheer_stone`: one `c.encode() + b'\0'` record per initial
character, then the rule pairs, with the final `assert len(ts) == 512`. -/
def sheer_stone (inits : List Nat) (rules : List (Nat × Nat)) : Option (List Nat) :=
  match packRules rules with
  | none => none
  | some rb =>
    let ts := flatMapN (fun c => utf8Enc c ++ [0]) inits ++ rb
    if ts.length = 512 then some ts else none

/-- The decompressor's rule table view of a grammar: slot `i < |inits|`
is `(literal byte, 0)`, slot `|inits| + j` is rule `j`.  This is exactly
what bsides25.py `read_books` reconstructs from the `sheer_stone` bytes
(`TEXT_COMPRESSION_RULES = [(tcr[i], tcr[i+1]) for i in range(0, len(tcr), 2)]`)
when every initial character is a single UTF-8 byte. -/
def mkTable (inits : List Nat) (rules : List (Nat × Nat)) : List (Nat × Nat) :=
  inits.map (fun c => (c, 0)) ++ rules

/-- books.py `compress`, full pipeline as far as it is modelled here:
build the grammar, inflate the rewritten sequence back over the tree shape
(`assert len(flattened_more) == 0`), and serialize the grammar. -/
def compressModel (books : Doc) (maxT : Nat) : Option (List Nat × Doc) :=
  match buildGrammar books maxT with
  | none => none
  | some (inits, rules, seq) =>
    match inflateD books seq with
    | none => none
    | some (t, rest) =>
      if rest = [] then (sheer_stone inits rules).map (fun ts => (ts, t)) else none

/-! ### The stack-based decompressor (bsides25.py `text_decompress`, lines 641-663) -/

inductive DecompErr where
  | stackOverflow : DecompErr
  | badSymbol : DecompErr
  | nonAscii : DecompErr
  | fuelOut : DecompErr
deriving DecidableEq

deriving instance DecidableEq for Except

/-- `stack[i] = v`: Python list assignment raises IndexError out of range
(the stack is the fixed list `[0] * 64`, so this is the overflow check). -/
def writeStack (st : List Nat) (i v : Nat) : Except DecompErr (List Nat) :=
  if i < st.length then .ok (setN st i v) else .error .stackOverflow

/-- The inner `while top:` loop of `text_decompress`: pop `cur = stack[top]`
after `top -= 1`, look up `left, right = TEXT_COMPRESSION_RULES[cur]`
(IndexError = `badSymbol`); a literal slot (`right == 0`) either flushes the
paragraph buffer on `'\n'` (`out.decode('ascii')` fails on a byte ≥ 128) or
appends the byte; a composite slot writes `stack[top] = right`,
`stack[top+1] = left` and grows `top` by 2.  Fuel bounds the number of loop
iterations; running out is the distinct error `fuelOut`, so statements about
other outcomes are fuel-robust. -/
def drain (tbl : List (Nat × Nat)) :
    Nat → List Nat → Nat → List Nat → List (List Nat) →
    Except DecompErr (List Nat × Nat × List Nat × List (List Nat))
  | 0, _, _, _, _ => .error .fuelOut
  | fuel + 1, st, top, out, paras =>
    match top with
    | 0 => .ok (st, 0, out, paras)
    | t + 1 =>
      match getPair tbl (getN st t) with
      | none => .error .badSymbol
      | some (l, r) =>
        if r = 0 then
          if l = 10 then
            if out.all (fun c => decide (c < 128)) then
              drain tbl fuel st t [] (paras ++ [out])
            else .error .nonAscii
          else drain tbl fuel st t (out ++ [l]) paras
        else
          match writeStack st t r with
          | .error e => .error e
          | .ok st1 =>
            match writeStack st1 (t + 1) l with
            | .error e => .error e
            | .ok st2 => drain tbl fuel st2 (t + 2) out paras

/-- The outer `for v in obj:` loop: push `v` (`stack[top] = v; top += 1`,
with `top = 0` after every drained symbol) and drain; at the end, yield the
buffer as a final paragraph if it is nonempty. -/
def tdGo (tbl : List (Nat × Nat)) (fuel : Nat) :
    List Nat → List Nat → List Nat → List (List Nat) →
    Except DecompErr (List (List Nat))
  | [], _, out, paras =>
    if out = [] then .ok paras
    else if out.all (fun c => decide (c < 128)) then .ok (paras ++ [out])
    else .error .nonAscii
  | v :: rest, st, out, paras =>
    match writeStack st 0 v with
    | .error e => .error e
    | .ok st1 =>
      match drain tbl fuel st1 1 out paras with
      | .error e => .error e
      | .ok (st2, _, out2, paras2) => tdGo tbl fuel rest st2 out2 paras2

/-- bsides25.py `text_decompress`: the list of paragraphs the generator
yields, starting from the fixed stack `[0] * 64`. -/
def text_decompress (tbl : List (Nat × Nat)) (obj : List Nat) (fuel : Nat) :
    Except DecompErr (List (List Nat)) :=
  tdGo tbl fuel obj (List.replicate 64 0) [] []

/-! ### Reference semantics for the decompressor -/

/-- The literal expansion of one symbol, with fuel: a literal slot is its
byte, a composite slot `(l, r)` with references strictly below the slot id
expands to `expand l ++ expand r`.  The guard makes the recursion total;
on a table whose composite slots reference strictly lower ids it never
fires (`fuel = i + 1` then always suffices). -/
def expandFuel (tbl : List (Nat × Nat)) : Nat → Nat → List Nat
  | 0, _ => []
  | fuel + 1, i =>
    match getPair tbl i with
    | none => []
    | some (l, r) =>
      if r = 0 then [l]
      else if l < i ∧ r < i then expandFuel tbl fuel l ++ expandFuel tbl fuel r
      else []

/-- The literal expansion of a symbol of a well-formed table. -/
def expandD (tbl : List (Nat × Nat)) (i : Nat) : List Nat :=
  expandFuel tbl (i + 1) i

/-- Well-formed rule table: every composite slot (second component nonzero)
references only strictly lower symbol ids. -/
def WfT (tbl : List (Nat × Nat)) : Prop :=
  ∀ i, i < tbl.length → (pairN tbl i).2 ≠ 0 →
    (pairN tbl i).1 < i ∧ (pairN tbl i).2 < i

instance (tbl : List (Nat × Nat)) : Decidable (WfT tbl) :=
  Nat.decidableBallLT tbl.length _

/-- Reference paragraph accumulator over a stream of literals: a newline
(byte 10) flushes the buffer as one paragraph (even if empty), any other
literal is appended. -/
def consume : List Nat → List Nat → List (List Nat) → (List Nat × List (List Nat))
  | [], out, paras => (out, paras)
  | c :: rest, out, paras =>
    if c = 10 then consume rest [] (paras ++ [out])
    else consume rest (out ++ [c]) paras

/-- All newline-separated segments of a literal stream (`n` newlines give
`n + 1` segments). -/
def splitSegs : List Nat → List (List Nat)
  | [] => [[]]
  | c :: t =>
    if c = 10 then [] :: splitSegs t
    else
      match splitSegs t with
      | [] => [[c]]
      | s :: ss => (c :: s) :: ss

/-- Modelled from the spec (section 4.5): the paragraphs a decode of a
literal stream must yield — every newline-terminated segment in order (a
newline flushes the buffer even when empty) and the trailing segment if and
only if it is nonempty. -/
def splitParas (l : List Nat) : List (List Nat) :=
  let segs := splitSegs l
  butLast segs ++ (if lastD segs = [] then [] else [lastD segs])

/-- Pop-order contents of the stack (`stack[top-1], ..., stack[0]`). -/
def takeRev (st : List Nat) : Nat → List Nat
  | 0 => []
  | t + 1 => getN st t :: takeRev st t

/-! ### Reference rewrite (spec section 4.3, step 4) -/

/-- Modelled from the spec: leftmost non-overlapping replacement — scanning
left to right, wherever the group occurs element-by-element starting at the
current position, the whole matched span is replaced by the new id and the
scan advances past it (the second argument counts the remaining symbols of
a matched span still to be skipped); otherwise the current symbol is copied
and the scan advances by one.  Matched spans never overlap and symbols
outside matched spans are copied in order, by construction. -/
def lmrAux (g0 : Nat) (gr : List Nat) (nid : Nat) : List Nat → Nat → List Nat
  | [], _ => []
  | _ :: t, skip + 1 => lmrAux g0 gr nid t skip
  | s :: t, 0 =>
    if takeN (s :: t) (gr.length + 1) = g0 :: gr then
      nid :: lmrAux g0 gr nid t gr.length
    else s :: lmrAux g0 gr nid t 0

/-- Reference leftmost non-overlapping replacement of the (nonempty) group
`g0 :: gr` by `nid`. -/
def leftmostReplace (g0 : Nat) (gr : List Nat) (nid : Nat) (l : List Nat) : List Nat :=
  lmrAux g0 gr nid l 0

/-- A 256-slot example grammar used as a concrete witness input: the
alphabet 0..127 and 128 copies of the composite rule (1, 2). -/
def initsW : List Nat := List.range 128

def rulesW : List (Nat × Nat) := List.replicate 128 (1, 2)

/-- The expected serialized table for `initsW` / `rulesW`. -/
def tsW : List Nat :=
  flatMapN (fun c => [c, 0]) initsW ++ flatMapN (fun r => [r.1, r.2]) rulesW

/-- A 66-slot rule table: slots 0 and 1 are the literals 'a'/'b', slot
`i >= 2` is the composite `(i - 1, i - 1)`.  Every composite references
strictly lower ids, and 66 <= 256 slots, so the table satisfies every
invariant the builder guarantees; expanding symbol 65 nests 64 deep. -/
def chainTbl : List (Nat × Nat) :=
  [(97, 0), (98, 0)] ++ (List.range 64).map (fun k => (k + 1, k + 1))

/-! ### Helper lemmas about the list primitives -/

theorem dropN_zero (l : List Nat) : dropN l 0 = l := by cases l <;> rfl

theorem dropN_nil (n : Nat) : dropN [] n = [] := by cases n <;> rfl

theorem dropN_cons_succ (x : Nat) (t : List Nat) (i : Nat) :
    dropN (x :: t) (i + 1) = dropN t i := rfl

theorem dropN_dropN (l : List Nat) (i k : Nat) :
    dropN (dropN l i) k = dropN l (i + k) := by
  induction l generalizing i with
  | nil => simp [dropN_nil]
  | cons x t ih =>
    cases i with
    | zero => simp [dropN_zero]
    | succ i =>
      rw [dropN_cons_succ, ih, Nat.add_right_comm, dropN_cons_succ]

theorem dropN_eq_cons (l : List Nat) (i : Nat) (h : i < l.length) :
    dropN l i = getN l i :: dropN l (i + 1) := by
  induction l generalizing i with
  | nil => simp at h
  | cons x t ih =>
    cases i with
    | zero => simp [dropN_zero, getN, dropN_cons_succ]
    | succ i =>
      rw [dropN_cons_succ, show i + 1 + 1 = i + 1 + 1 from rfl, dropN_cons_succ]
      exact ih i (by simpa using h)

theorem dropN_eq_nil (l : List Nat) (i : Nat) (h : l.length ≤ i) :
    dropN l i = [] := by
  induction l generalizing i with
  | nil => exact dropN_nil i
  | cons x t ih =>
    cases i with
    | zero => simp at h
    | succ i => rw [dropN_cons_succ]; exact ih i (by simpa using h)

theorem getN_mem (l : List Nat) (i : Nat) (h : i < l.length) : getN l i ∈ l := by
  induction l generalizing i with
  | nil => simp at h
  | cons x t ih =>
    cases i with
    | zero => simp [getN]
    | succ i => simpa [getN] using Or.inr (ih i (by simpa using h))

theorem length_setN (l : List Nat) (i v : Nat) : (setN l i v).length = l.length := by
  induction l generalizing i with
  | nil => rfl
  | cons x t ih => cases i with
    | zero => rfl
    | succ i => simpa [setN] using ih i

theorem getN_setN_self (l : List Nat) (i v : Nat) (h : i < l.length) :
    getN (setN l i v) i = v := by
  induction l generalizing i with
  | nil => simp at h
  | cons x t ih =>
    cases i with
    | zero => rfl
    | succ i => simpa [setN, getN] using ih i (by simpa using h)

theorem getN_setN_ne (l : List Nat) (i j v : Nat) (h : i ≠ j) :
    getN (setN l i v) j = getN l j := by
  induction l generalizing i j with
  | nil => rfl
  | cons x t ih =>
    cases i with
    | zero => cases j with
      | zero => exact absurd rfl h
      | succ j => rfl
    | succ i => cases j with
      | zero => rfl
      | succ j => simpa [setN, getN] using ih i j (by omega)

theorem flatMapN_append {α β : Type} (f : α → List β) (a b : List α) :
    flatMapN f (a ++ b) = flatMapN f a ++ flatMapN f b := by
  induction a with
  | nil => rfl
  | cons x t ih => simp [flatMapN, ih]

theorem takeRev_setN_of_le (st : List Nat) (i v t : Nat) (h : t ≤ i) :
    takeRev (setN st i v) t = takeRev st t := by
  induction t with
  | zero => rfl
  | succ t ih =>
    rw [takeRev, takeRev, getN_setN_ne st i t v (by omega), ih (by omega)]


/-! ### C7: the rewrite pass is leftmost non-overlapping replacement -/

theorem lmrAux_skip (g0 : Nat) (gr : List Nat) (nid : Nat) (l : List Nat) (k : Nat) :
    lmrAux g0 gr nid l k = lmrAux g0 gr nid (dropN l k) 0 := by
  induction l generalizing k with
  | nil => rw [dropN_nil]; rfl
  | cons x t ih =>
    cases k with
    | zero => rw [dropN_zero]
    | succ k => rw [dropN_cons_succ, lmrAux, ih]

theorem takeN_cons_succ (x : Nat) (t : List Nat) (k : Nat) :
    takeN (x :: t) (k + 1) = x :: takeN t k := rfl

theorem rewriteFrom_eq_lmrAux (seq : List Nat) (g0 : Nat) (gr : List Nat) (nid : Nat) :
    ∀ fuel i, seq.length ≤ fuel + i →
      rewriteFrom seq g0 gr nid fuel i = lmrAux g0 gr nid (dropN seq i) 0 := by
  intro fuel
  induction fuel with
  | zero =>
    intro i h
    rw [rewriteFrom, dropN_eq_nil seq i (by omega)]
    rfl
  | succ fuel ih =>
    intro i h
    rw [rewriteFrom]
    by_cases hi : i < seq.length
    · rw [if_pos hi, dropN_eq_cons seq i hi, lmrAux]
      have hcond : (getN seq i = g0 ∧
            takeN (getN seq i :: dropN seq (i + 1)) (gr.length + 1) = g0 :: gr)
          ↔ takeN (getN seq i :: dropN seq (i + 1)) (gr.length + 1) = g0 :: gr := by
        constructor
        · intro hc; exact hc.2
        · intro hc
          refine ⟨?_, hc⟩
          rw [takeN_cons_succ] at hc
          injection hc
      by_cases hc : takeN (getN seq i :: dropN seq (i + 1)) (gr.length + 1) = g0 :: gr
      · rw [if_pos (hcond.mpr hc), if_pos hc, ih (i + (gr.length + 1)) (by omega),
          lmrAux_skip g0 gr nid (dropN seq (i + 1)) gr.length, dropN_dropN]
        have harith : i + 1 + gr.length = i + (gr.length + 1) := by omega
        rw [harith]
      · rw [if_neg (fun hx => hc (hcond.mp hx)), if_neg hc, ih (i + 1) (by omega)]
    · rw [if_neg hi, dropN_eq_nil seq i (by omega)]
      rfl

/-- C7: for every current sequence, chosen (nonempty) group `g0 :: gr` and
new symbol id, one rewrite pass of the builder (books.py lines 101-112,
including its redundant first-element pre-check and Python slice
truncation) equals the reference leftmost non-overlapping replacement of
the spec: matched spans are replaced whole and skipped, other symbols are
copied in order. -/
theorem c7_rewrite_eq_leftmost (seq : List Nat) (g0 : Nat) (gr : List Nat) (nid : Nat) :
    rewriteAll seq g0 gr nid = leftmostReplace g0 gr nid seq := by
  rw [rewriteAll, leftmostReplace,
    rewriteFrom_eq_lmrAux seq g0 gr nid seq.length 0 (by omega), dropN_zero]

/-! ### C2: flatten/inflate round trip -/

theorem toSyms_append (a b : List Nat) : toSyms (a ++ b) = toSyms a ++ toSyms b := by
  induction a with
  | nil => rfl
  | cons c t ih => simp [toSyms, ih]

theorem toSyms_id (s : List Nat) (h : ∀ c ∈ s, c ≠ 0) : toSyms s = s := by
  induction s with
  | nil => rfl
  | cons c t ih =>
    rw [toSyms, if_neg (h c (by simp)), ih (fun x hx => h x (by simp [hx]))]

theorem splitDelim_append (s r : List Nat) (h : ∀ c ∈ s, c ≠ CHUNKS_DELIMITER) :
    splitDelim (s ++ CHUNKS_DELIMITER :: r) = some (s, r) := by
  induction s with
  | nil => simp [splitDelim]
  | cons c t ih =>
    rw [List.cons_append, splitDelim, if_neg (h c (by simp)),
      ih (fun x hx => h x (by simp [hx]))]
    rfl

theorem goodB_leaf_bytes (s : List Nat) (h : goodB (.leaf s) = true) :
    ∀ c ∈ s, 0 < c ∧ c < 256 := by
  intro c hc
  rw [goodB, List.all_eq_true] at h
  simpa using h c hc

theorem goodB_cons_leaf (d : Doc) (s : List Nat) : goodB (.cons d (.leaf s)) = false := rfl

theorem goodB_cons_named (d : Doc) (n : List Nat) (e : Doc) :
    goodB (.cons d (.named n e)) = false := rfl

theorem inflateD_cons_eq (d r : Doc) (fl : List Nat) (d2 r2 : Doc) (m fl2 : List Nat)
    (h1 : inflateD d fl = some (d2, m)) (h2 : inflateD r m = some (r2, fl2)) :
    inflateD (.cons d r) fl = some (.cons d2 r2, fl2) := by
  simp only [inflateD]
  rw [h1]
  dsimp only
  rw [h2]

theorem inflateD_nil_eq (fl : List Nat) : inflateD .nil fl = some (.nil, fl) := rfl

theorem flattenD_cons_cons (d e r : Doc) :
    flattenD (.cons d (.cons e r)) = flattenD d ++ 0 :: flattenD (.cons e r) := rfl

theorem inflate_flatten_aux (t : Doc) :
    ∀ rest, goodB t = true →
      inflateD t (toSyms (flattenD t) ++ CHUNKS_DELIMITER :: rest) = some (t, rest) := by
  induction t with
  | leaf s =>
    intro rest hg
    have hb := goodB_leaf_bytes s hg
    have hall : s.all (fun c => decide (c < 256)) = true := by
      rw [List.all_eq_true]
      intro c hc
      simpa using (hb c hc).2
    rw [flattenD, toSyms_id s (fun c hc => by have := hb c hc; omega)]
    simp [inflateD, splitDelim_append s rest (fun c hc => by
      have := hb c hc
      simp only [CHUNKS_DELIMITER]
      omega), hall]
  | named n d ih =>
    intro rest hg
    rw [goodB] at hg
    rw [flattenD]
    simp [inflateD, ih rest hg]
  | nil =>
    intro rest hg
    rw [goodB] at hg
    exact absurd hg (by simp)
  | cons d r ihd ihr =>
    intro rest hg
    cases r with
    | nil =>
      rw [goodB] at hg
      rw [flattenD]
      exact inflateD_cons_eq d .nil _ d .nil rest rest (ihd rest hg) (inflateD_nil_eq rest)
    | leaf s =>
      rw [goodB_cons_leaf] at hg
      exact absurd hg (by simp)
    | named n e =>
      rw [goodB_cons_named] at hg
      exact absurd hg (by simp)
    | cons e r2 =>
      rw [goodB, Bool.and_eq_true] at hg
      rw [flattenD_cons_cons, toSyms_append]
      have h0 : toSyms (0 :: flattenD (Doc.cons e r2)) =
          CHUNKS_DELIMITER :: toSyms (flattenD (Doc.cons e r2)) := by
        rw [toSyms, if_pos rfl]
      rw [h0, List.append_assoc, List.cons_append]
      exact inflateD_cons_eq d (.cons e r2) _ d (.cons e r2) _ rest
        (ihd (toSyms (flattenD (Doc.cons e r2)) ++ CHUNKS_DELIMITER :: rest) hg.1)
        (ihr rest hg.2)

theorem joinDelim_ne_nil (x : List Nat) (t : List (List Nat)) :
    joinDelim (x :: t) ≠ [] := by
  simp [joinDelim]

/-- Fidelity of the cons-chain form of `flattenD`: on a collection chain it
equals the literal books.py expression
`''.join([flatten(e) + '\0' for e in obj])[:-1]`. -/
theorem dropLast_chunk (a J : List Nat) (h : J ≠ []) :
    ((a ++ [0]) ++ J).dropLast = a ++ 0 :: J.dropLast := by
  cases J with
  | nil => exact absurd rfl h
  | cons j t => simp

theorem flattenD_chain (d r : Doc) :
    flattenD (.cons d r) =
      (joinDelim ((chainToList (.cons d r)).map flattenD)).dropLast := by
  induction r generalizing d with
  | leaf s =>
    have h : flattenD d ++ 0 :: s
        = ((flattenD d ++ [0]) ++ ((s ++ [0]) ++ [])).dropLast := by
      rw [List.append_nil, dropLast_chunk _ _ (by simp), List.dropLast_concat]
    exact h
  | named n e _ =>
    have h : flattenD d ++ 0 :: flattenD (Doc.named n e)
        = ((flattenD d ++ [0]) ++ ((flattenD (Doc.named n e) ++ [0]) ++ [])).dropLast := by
      rw [List.append_nil, dropLast_chunk _ _ (by simp), List.dropLast_concat]
    exact h
  | nil =>
    have h : flattenD d = ((flattenD d ++ [0]) ++ []).dropLast := by
      rw [List.append_nil, List.dropLast_concat]
    exact h
  | cons e r2 ihe ihr2 =>
    have hchain : chainToList (Doc.cons e r2) = e :: chainToList r2 := rfl
    have hne : joinDelim (List.map flattenD (chainToList (Doc.cons e r2))) ≠ [] := by
      rw [hchain, List.map_cons]
      exact joinDelim_ne_nil _ _
    have h : flattenD d ++ 0 :: flattenD (Doc.cons e r2)
        = ((flattenD d ++ [0])
            ++ joinDelim (List.map flattenD (chainToList (Doc.cons e r2)))).dropLast := by
      rw [dropLast_chunk _ _ hne, ← ihr2 e]
    exact h

/-- C2 counterexample: for the single-leaf tree with text `"a"`,
`inflate(shape, flatten(tree))` does not succeed — the leaf consumes up to
the next delimiter but `flatten` emits no delimiter after the last leaf, so
`flattened.index(CHUNKS_DELIMITER)` raises (here: `none`).  The claim as
stated is false. -/
theorem c2_no_trailing_delimiter_fails :
    inflateD (.leaf [97]) (toSyms (flattenD (.leaf [97]))) = none := rfl

/-- C2 (amended): for every document tree with only raw-text leaves whose
text is NUL-free bytes and without empty collection nodes, inflate applied
to the same shape and to `flatten(tree)` followed by ONE TRAILING DELIMITER
(exactly what `compress` feeds it via `corpus = flatten(books) + '\0'`)
succeeds, consumes the whole sequence, and returns a tree of identical
shape whose per-leaf payloads, read back as literal bytes, equal each
original leaf's text. -/
theorem c2_roundtrip_with_trailing_delimiter (t : Doc) (h : goodB t = true) :
    inflateD t (toSyms (flattenD t) ++ [CHUNKS_DELIMITER]) = some (t, []) :=
  inflate_flatten_aux t [] h

/-- Witness for C2 at the two-leaf tree `["a", "b"]`. -/
theorem c2_roundtrip_witness :
    goodB (Doc.cons (.leaf [97]) (.cons (.leaf [98]) .nil)) = true ∧
      inflateD (Doc.cons (.leaf [97]) (.cons (.leaf [98]) .nil))
        (toSyms (flattenD (Doc.cons (.leaf [97]) (.cons (.leaf [98]) .nil)))
          ++ [CHUNKS_DELIMITER])
        = some (Doc.cons (.leaf [97]) (.cons (.leaf [98]) .nil), []) :=
  ⟨by decide, c2_roundtrip_with_trailing_delimiter _ (by decide)⟩

/-! ### C5: token budget accounting -/

theorem bpeLoop_total :
    ∀ (fuel n maxT : Nat) (seq : List Nat) (rules : List (Nat × Nat))
      (last : Option (Nat × Nat)) (rs : List (Nat × Nat) × List Nat),
      bpeLoop n maxT fuel seq rules last = some rs →
      (maxT ≤ n + rules.length → rs = (rules, seq)) ∧
      (n + rules.length ≤ maxT → n + rs.1.length = maxT) := by
  intro fuel
  induction fuel with
  | zero =>
    intro n maxT seq rules last rs h
    rw [bpeLoop] at h
    by_cases hc : n + rules.length < maxT
    · rw [if_pos hc] at h
      exact absurd h (by simp)
    · rw [if_neg hc] at h
      have hrs := Option.some.inj h
      refine ⟨fun _ => hrs.symm, fun hle => ?_⟩
      rw [← hrs]
      dsimp only
      omega
  | succ fuel ih =>
    intro n maxT seq rules last rs h
    rw [bpeLoop] at h
    by_cases hc : n + rules.length < maxT
    · rw [if_pos hc] at h
      cases hm : (chooseMax (pairsOf seq)).orElse (fun x => last) with
      | none =>
        rw [hm] at h
        exact absurd h (by simp)
      | some p =>
        obtain ⟨a, b⟩ := p
        rw [hm] at h
        dsimp only at h
        have hstep := (ih n maxT _ _ _ rs h).2
        rw [List.length_append, List.length_cons, List.length_nil] at hstep
        exact ⟨fun hle => absurd hle (by omega), fun _ => hstep (by omega)⟩
    · rw [if_neg hc] at h
      have hrs := Option.some.inj h
      refine ⟨fun _ => hrs.symm, fun hle => ?_⟩
      rw [← hrs]
      dsimp only
      omega

/-- C5 counterexample: for the single-leaf tree `"ab"` and `max_tokens = 2`
the builder returns a grammar with `|initial_chars| + |rules| = 3 > 2`:
the loop guard is already false, no rule is created, and nothing bounds the
alphabet by the budget.  The claim `|initial_chars| + |rules| <= max_tokens`
for every `max_tokens` is false. -/
theorem c5_budget_counterexample :
    buildGrammar (.leaf [97, 98]) 2 = some ([0, 97, 98], [], [1, 2, 300]) ∧
      ¬ (([0, 97, 98] : List Nat).length + ([] : List (Nat × Nat)).length ≤ 2) :=
  ⟨rfl, by decide⟩

/-- C5 (amended): whenever the builder returns, if `|initial_chars| ≤
max_tokens` then `|initial_chars| + |rules| = max_tokens` exactly (the
builder never stops early, so equality always holds in that regime); and if
`max_tokens ≤ |initial_chars|` then no rule is created at all — in which
case the total is `|initial_chars|`, which exceeds the budget whenever the
inequality is strict. -/
theorem c5_token_budget (books : Doc) (maxT : Nat) (inits : List Nat)
    (rules : List (Nat × Nat)) (seq : List Nat)
    (h : buildGrammar books maxT = some (inits, rules, seq)) :
    (inits.length ≤ maxT → inits.length + rules.length = maxT) ∧
    (maxT ≤ inits.length → rules = []) := by
  rw [buildGrammar] at h
  simp only [Option.map_eq_some'] at h
  obtain ⟨rs, hrs, heq⟩ := h
  have h1 : sortedDedup (flattenD books ++ [0]) = inits := congrArg Prod.fst heq
  have h2 : rs.1 = rules := congrArg (fun p => p.2.1) heq
  have h3 : rs.2 = seq := congrArg (fun p => p.2.2) heq
  have htot := bpeLoop_total maxT _ maxT _ [] none rs hrs
  rw [List.length_nil, Nat.add_zero, h1] at htot
  constructor
  · intro hle
    rw [← h2]
    exact htot.2 hle
  · intro hge
    rw [← h2, htot.1 hge]

/-- Witness for C5 at the single-leaf tree `"a"` with `max_tokens = 4`. -/
theorem c5_token_budget_witness :
    buildGrammar (.leaf [97]) 4 = some ([0, 97], [(1, 300), (1, 300)], [2]) ∧
      ((([0, 97] : List Nat).length ≤ 4 →
          ([0, 97] : List Nat).length + ([(1, 300), (1, 300)] : List (Nat × Nat)).length = 4) ∧
        (4 ≤ ([0, 97] : List Nat).length →
          ([(1, 300), (1, 300)] : List (Nat × Nat)) = [])) :=
  ⟨rfl, c5_token_budget (.leaf [97]) 4 [0, 97] [(1, 300), (1, 300)] [2] rfl⟩

/-! ### C10: symbol id 0 is never used -/

theorem insortD_zero (m : List Nat) : ∃ t, insortD 0 m = 0 :: t := by
  cases m with
  | nil => exact ⟨[], rfl⟩
  | cons y t =>
    rw [insortD]
    by_cases hy : 0 < y
    · rw [if_pos hy]
      exact ⟨y :: t, rfl⟩
    · have hy0 : y = 0 := by omega
      subst hy0
      simp

theorem insortD_cons_zero (x : Nat) (m : List Nat) (hx : x ≠ 0) :
    insortD x (0 :: m) = 0 :: insortD x m := by
  rw [insortD, if_neg (by omega), if_neg (by omega)]

theorem sortedDedup_head_zero (l : List Nat) (h : (0 : Nat) ∈ l) :
    ∃ t, sortedDedup l = 0 :: t := by
  induction l with
  | nil => simp at h
  | cons c t ih =>
    rw [sortedDedup, List.foldr_cons]
    by_cases hc : c = 0
    · subst hc
      exact insortD_zero _
    · have h0 : (0 : Nat) ∈ t := by
        rcases List.mem_cons.mp h with h1 | h1
        · exact absurd h1.symm hc
        · exact h1
      obtain ⟨m, hm⟩ := ih h0
      rw [sortedDedup] at hm
      rw [hm, insortD_cons_zero c m hc]
      exact ⟨insortD c m, rfl⟩

theorem charToId_ne_zero (m : List Nat) (c : Nat) : charToId (0 :: m) c ≠ 0 := by
  rw [charToId]
  by_cases hc : c = 0
  · rw [if_pos hc]
    simp [CHUNKS_DELIMITER]
  · rw [if_neg hc, List.indexOf_cons]
    have hb : ((0 : Nat) == c) = false := by
      simpa using fun h => hc h.symm
    rw [hb]
    simp

theorem foldl_best_mem (ps : List (Nat × Nat)) :
    ∀ (t : List (Nat × Nat)) (x : Nat × Nat),
      (t.foldl (fun best y => if countOcc ps best < countOcc ps y then y else best) x)
        ∈ x :: t := by
  intro t
  induction t with
  | nil => intro x; simp
  | cons y t ih =>
    intro x
    rw [List.foldl_cons]
    by_cases hxy : countOcc ps x < countOcc ps y
    · rw [if_pos hxy]
      rcases List.mem_cons.mp (ih y) with h | h
      · simp [h]
      · simp [h]
    · rw [if_neg hxy]
      rcases List.mem_cons.mp (ih x) with h | h
      · simp [h]
      · simp [h]

theorem foAux_subset (z : Nat × Nat) :
    ∀ (l acc : List (Nat × Nat)), z ∈ foAux acc l → z ∈ acc ∨ z ∈ l := by
  intro l
  induction l with
  | nil =>
    intro acc h
    exact Or.inl h
  | cons x t ih =>
    intro acc h
    rw [foAux] at h
    by_cases hx : x ∈ acc
    · rw [if_pos hx] at h
      rcases ih acc h with h1 | h1
      · exact Or.inl h1
      · exact Or.inr (List.mem_cons.mpr (Or.inr h1))
    · rw [if_neg hx] at h
      rcases ih (acc ++ [x]) h with h1 | h1
      · rcases List.mem_append.mp h1 with h2 | h2
        · exact Or.inl h2
        · simp at h2
          exact Or.inr (List.mem_cons.mpr (Or.inl h2))
      · exact Or.inr (List.mem_cons.mpr (Or.inr h1))

theorem chooseMax_mem (ps : List (Nat × Nat)) (p : Nat × Nat)
    (h : chooseMax ps = some p) : p ∈ ps := by
  rw [chooseMax] at h
  cases hfo : foAux [] ps with
  | nil => rw [hfo] at h; exact absurd h (by simp)
  | cons x t =>
    rw [hfo] at h
    have hp := Option.some.inj h
    have hmem : p ∈ x :: t := hp ▸ foldl_best_mem ps t x
    have : p ∈ foAux [] ps := hfo ▸ hmem
    rcases foAux_subset p ps [] this with h1 | h1
    · simp at h1
    · exact h1

theorem pairsOf_mem (seq : List Nat) (p : Nat × Nat) (h : p ∈ pairsOf seq) :
    p.1 ∈ seq ∧ p.2 ∈ seq := by
  rw [pairsOf] at h
  obtain ⟨a, b⟩ := p
  have := List.of_mem_zip h
  exact ⟨this.1, List.mem_of_mem_tail this.2⟩

theorem rewriteFrom_mem (seq : List Nat) (g0 : Nat) (gr : List Nat) (nid : Nat) :
    ∀ (fuel i : Nat) (x : Nat), x ∈ rewriteFrom seq g0 gr nid fuel i →
      x = nid ∨ x ∈ seq := by
  intro fuel
  induction fuel with
  | zero =>
    intro i x h
    rw [rewriteFrom] at h
    simp at h
  | succ fuel ih =>
    intro i x h
    rw [rewriteFrom] at h
    by_cases hi : i < seq.length
    · rw [if_pos hi] at h
      by_cases hc : getN seq i = g0 ∧ takeN (dropN seq i) (gr.length + 1) = g0 :: gr
      · rw [if_pos hc] at h
        rcases List.mem_cons.mp h with h1 | h1
        · exact Or.inl h1
        · exact ih _ x h1
      · rw [if_neg hc] at h
        rcases List.mem_cons.mp h with h1 | h1
        · exact Or.inr (h1 ▸ getN_mem seq i hi)
        · exact ih _ x h1
    · rw [if_neg hi] at h
      simp at h

theorem bpeLoop_no_zero :
    ∀ (fuel n maxT : Nat) (seq : List Nat) (rules : List (Nat × Nat))
      (last : Option (Nat × Nat)) (rs : List (Nat × Nat) × List Nat),
      1 ≤ n →
      (0 : Nat) ∉ seq →
      (∀ p ∈ rules, p.1 ≠ 0 ∧ p.2 ≠ 0) →
      (∀ p : Nat × Nat, last = some p → p.1 ≠ 0 ∧ p.2 ≠ 0) →
      bpeLoop n maxT fuel seq rules last = some rs →
      ((0 : Nat) ∉ rs.2) ∧ (∀ p ∈ rs.1, p.1 ≠ 0 ∧ p.2 ≠ 0) := by
  intro fuel
  induction fuel with
  | zero =>
    intro n maxT seq rules last rs hn hseq hrules hlast h
    rw [bpeLoop] at h
    by_cases hc : n + rules.length < maxT
    · rw [if_pos hc] at h
      exact absurd h (by simp)
    · rw [if_neg hc] at h
      have hrs := Option.some.inj h
      rw [← hrs]
      exact ⟨hseq, hrules⟩
  | succ fuel ih =>
    intro n maxT seq rules last rs hn hseq hrules hlast h
    rw [bpeLoop] at h
    by_cases hc : n + rules.length < maxT
    · rw [if_pos hc] at h
      cases hm : (chooseMax (pairsOf seq)).orElse (fun x => last) with
      | none =>
        rw [hm] at h
        exact absurd h (by simp)
      | some p =>
        obtain ⟨a, b⟩ := p
        rw [hm] at h
        dsimp only at h
        have hab : a ≠ 0 ∧ b ≠ 0 := by
          cases hcm : chooseMax (pairsOf seq) with
          | none =>
            rw [hcm] at hm
            exact hlast (a, b) hm
          | some q =>
            rw [hcm] at hm
            have hq : q = (a, b) := Option.some.inj hm
            subst hq
            have hmem := chooseMax_mem _ _ hcm
            have hp := pairsOf_mem seq (a, b) hmem
            exact ⟨fun h0 => hseq (h0 ▸ hp.1), fun h0 => hseq (h0 ▸ hp.2)⟩
        refine ih n maxT _ _ _ rs hn ?_ ?_ ?_ h
        · intro hx
          rcases rewriteFrom_mem seq a [b] (n + rules.length) seq.length 0 0 hx with h1 | h1
          · omega
          · exact hseq h1
        · intro p hp
          rcases List.mem_append.mp hp with h1 | h1
          · exact hrules p h1
          · simp at h1
            rw [h1]
            exact hab
        · intro p hp
          have := Option.some.inj hp
          rw [← this]
          exact hab
    · rw [if_neg hc] at h
      have hrs := Option.some.inj h
      rw [← hrs]
      exact ⟨hseq, hrules⟩

theorem pairN_append_left (l1 l2 : List (Nat × Nat)) :
    ∀ i, i < l1.length → pairN (l1 ++ l2) i = pairN l1 i := by
  induction l1 with
  | nil => intro i h; simp at h
  | cons p t ih =>
    intro i h
    cases i with
    | zero => rfl
    | succ i => exact ih i (by simpa using h)

theorem pairN_append_right (l1 l2 : List (Nat × Nat)) :
    ∀ k, pairN (l1 ++ l2) (l1.length + k) = pairN l2 k := by
  induction l1 with
  | nil => intro k; simp only [List.nil_append, List.length_nil, Nat.zero_add]
  | cons p t ih =>
    intro k
    have harith : (p :: t).length + k = (t.length + k) + 1 := by
      simp
      omega
    rw [harith, List.cons_append, pairN, ih k]

theorem pairN_map_inits (inits : List Nat) :
    ∀ i, i < inits.length →
      pairN (inits.map (fun c => (c, 0))) i = (getN inits i, 0) := by
  induction inits with
  | nil => intro i h; simp at h
  | cons c t ih =>
    intro i h
    cases i with
    | zero => rfl
    | succ i => exact ih i (by simpa using h)

theorem pairN_mem (l : List (Nat × Nat)) : ∀ i, i < l.length → pairN l i ∈ l := by
  induction l with
  | nil => intro i h; simp at h
  | cons p t ih =>
    intro i h
    cases i with
    | zero => simp [pairN]
    | succ i =>
      rw [pairN]
      exact List.mem_cons.mpr (Or.inr (ih i (by simpa using h)))

/-- C10: in every grammar the builder returns, symbol id 0 (the slot of the
`'\0'` literal) never occurs in the rewritten sequence nor as an element of
any rule, because `'\0'` is remapped to delimiter id 300 before the
sequence is built; consequently in the decompressor's slot table (literal
slots `(byte, 0)` followed by the rule pairs, as `read_books` reconstructs
it from the serialized bytes) the second component of slot `i` is 0 exactly
when `i` is a literal slot, so the `right == 0` test of `text_decompress`
unambiguously distinguishes literal slots from composite rules. -/
theorem c10_zero_id_unused (books : Doc) (maxT : Nat) (inits : List Nat)
    (rules : List (Nat × Nat)) (seq : List Nat)
    (h : buildGrammar books maxT = some (inits, rules, seq)) :
    ((0 : Nat) ∉ seq) ∧ (∀ p ∈ rules, p.1 ≠ 0 ∧ p.2 ≠ 0) ∧
    (∀ i, i < inits.length + rules.length →
      ((pairN (mkTable inits rules) i).2 = 0 ↔ i < inits.length)) := by
  rw [buildGrammar] at h
  simp only [Option.map_eq_some'] at h
  obtain ⟨rs, hrs, heq⟩ := h
  have h1 : sortedDedup (flattenD books ++ [0]) = inits := congrArg Prod.fst heq
  have h2 : rs.1 = rules := congrArg (fun p => p.2.1) heq
  have h3 : rs.2 = seq := congrArg (fun p => p.2.2) heq
  obtain ⟨m, hm⟩ := sortedDedup_head_zero (flattenD books ++ [0]) (by simp)
  have hinits : inits = 0 :: m := h1 ▸ hm
  have hseq0 : (0 : Nat) ∉ (flattenD books ++ [0]).map (charToId inits) := by
    intro hx
    obtain ⟨c, _, hcid⟩ := List.mem_map.mp hx
    rw [hinits] at hcid
    exact charToId_ne_zero m c hcid
  rw [h1] at hrs
  have hinv := bpeLoop_no_zero maxT inits.length maxT _ [] none rs
    (by rw [hinits]; simp) hseq0
    (by intro p hp; simp at hp) (by intro p hp; simp at hp) hrs
  have hseq : (0 : Nat) ∉ seq := h3 ▸ hinv.1
  have hrules : ∀ p ∈ rules, p.1 ≠ 0 ∧ p.2 ≠ 0 := h2 ▸ hinv.2
  refine ⟨hseq, hrules, ?_⟩
  intro i hi
  rw [mkTable]
  by_cases hlit : i < inits.length
  · rw [pairN_append_left _ _ i (by simpa using hlit), pairN_map_inits inits i hlit]
    simpa using hlit
  · have hval : pairN (inits.map (fun c => (c, 0)) ++ rules) i
        = pairN rules (i - inits.length) := by
      have hk : i = (inits.map (fun c => (c, 0))).length + (i - inits.length) := by
        simp
        omega
      nth_rewrite 1 [hk]
      rw [pairN_append_right]
    rw [hval]
    have hkr : i - inits.length < rules.length := by omega
    have hmem := pairN_mem rules _ hkr
    have hne := (hrules _ hmem).2
    constructor
    · intro hcontra
      exact absurd hcontra hne
    · intro hcontra
      exact absurd hcontra hlit

/-- Witness for C10 at the single-leaf tree `"aa"` with `max_tokens = 4`. -/
theorem c10_zero_id_unused_witness :
    buildGrammar (.leaf [97, 97]) 4 = some ([0, 97], [(1, 1), (2, 300)], [3]) ∧
      (((0 : Nat) ∉ ([3] : List Nat)) ∧
        (∀ p ∈ ([(1, 1), (2, 300)] : List (Nat × Nat)), p.1 ≠ 0 ∧ p.2 ≠ 0) ∧
        (∀ i, i < ([0, 97] : List Nat).length + ([(1, 1), (2, 300)] : List (Nat × Nat)).length →
          ((pairN (mkTable [0, 97] [(1, 1), (2, 300)]) i).2 = 0 ↔ i < ([0, 97] : List Nat).length))) :=
  ⟨rfl, c10_zero_id_unused (.leaf [97, 97]) 4 [0, 97] [(1, 1), (2, 300)] [3] rfl⟩

/-! ### C9: serialized grammar table layout -/

theorem utf8Enc_ascii (c : Nat) (h : c < 128) : utf8Enc c = [c] := by
  rw [utf8Enc, if_pos h]

theorem flat_lit_ascii (inits : List Nat) (h : ∀ c ∈ inits, c < 128) :
    flatMapN (fun c => utf8Enc c ++ [0]) inits = flatMapN (fun c => [c, 0]) inits := by
  induction inits with
  | nil => rfl
  | cons c t ih =>
    rw [flatMapN, flatMapN, utf8Enc_ascii c (h c (by simp)),
      ih (fun x hx => h x (by simp [hx]))]
    rfl

theorem packRules_eq (rules : List (Nat × Nat)) :
    ∀ rb, packRules rules = some rb →
      rb = flatMapN (fun r => [r.1, r.2]) rules ∧
        ∀ r ∈ rules, r.1 < 256 ∧ r.2 < 256 := by
  induction rules with
  | nil =>
    intro rb h
    rw [packRules] at h
    have := Option.some.inj h
    exact ⟨this.symm, by simp⟩
  | cons p t ih =>
    intro rb h
    obtain ⟨l, r⟩ := p
    rw [packRules] at h
    by_cases hb : l < 256 ∧ r < 256
    · rw [if_pos hb] at h
      cases ht : packRules t with
      | none => rw [ht] at h; exact absurd h (by simp)
      | some tb =>
        rw [ht] at h
        have hrb := Option.some.inj h
        obtain ⟨htb, hbound⟩ := ih tb ht
        refine ⟨?_, ?_⟩
        · rw [← hrb, htb]
          rfl
        · intro q hq
          rcases List.mem_cons.mp hq with h1 | h1
          · rw [h1]; exact hb
          · exact hbound q h1
    · rw [if_neg hb] at h
      exact absurd h (by simp)

theorem flat2_length {α : Type} (f : α → Nat × Nat) (l : List α) :
    (flatMapN (fun a => [(f a).1, (f a).2]) l).length = 2 * l.length := by
  induction l with
  | nil => rfl
  | cons x t ih =>
    rw [flatMapN, List.length_append, ih]
    simp
    omega

theorem flat_lit_length (l : List Nat) :
    (flatMapN (fun c => [c, 0]) l).length = 2 * l.length := by
  induction l with
  | nil => rfl
  | cons x t ih =>
    rw [flatMapN, List.length_append, ih]
    simp
    omega

theorem getN_append_right (a b : List Nat) : ∀ k, getN (a ++ b) (a.length + k) = getN b k := by
  induction a with
  | nil => intro k; simp only [List.nil_append, List.length_nil, Nat.zero_add]
  | cons x t ih =>
    intro k
    have harith : (x :: t).length + k = (t.length + k) + 1 := by
      simp
      omega
    rw [harith, List.cons_append, getN, ih k]

theorem flat_lit_getN (l rest : List Nat) :
    ∀ i, i < l.length →
      getN (flatMapN (fun c => [c, 0]) l ++ rest) (2 * i) = getN l i ∧
      getN (flatMapN (fun c => [c, 0]) l ++ rest) (2 * i + 1) = 0 := by
  induction l with
  | nil => intro i h; simp at h
  | cons c t ih =>
    intro i h
    cases i with
    | zero => exact ⟨rfl, rfl⟩
    | succ i =>
      have h2 : 2 * (i + 1) = (2 * i + 1) + 1 := by omega
      have hred : flatMapN (fun c => [c, 0]) (c :: t) ++ rest
          = c :: 0 :: (flatMapN (fun c => [c, 0]) t ++ rest) := rfl
      rw [hred, h2]
      simp only [getN]
      exact ⟨(ih i (by simpa using h)).1, (ih i (by simpa using h)).2⟩

theorem flat_pair_getN (rl : List (Nat × Nat)) (rest : List Nat) :
    ∀ j, j < rl.length →
      getN (flatMapN (fun r => [r.1, r.2]) rl ++ rest) (2 * j) = (pairN rl j).1 ∧
      getN (flatMapN (fun r => [r.1, r.2]) rl ++ rest) (2 * j + 1) = (pairN rl j).2 := by
  induction rl with
  | nil => intro j h; simp at h
  | cons p t ih =>
    intro j h
    cases j with
    | zero => exact ⟨rfl, rfl⟩
    | succ j =>
      have h2 : 2 * (j + 1) = (2 * j + 1) + 1 := by omega
      have hred : flatMapN (fun r => [r.1, r.2]) (p :: t) ++ rest
          = p.1 :: p.2 :: (flatMapN (fun r => [r.1, r.2]) t ++ rest) := rfl
      rw [hred, h2]
      simp only [getN, pairN]
      exact ⟨(ih j (by simpa using h)).1, (ih j (by simpa using h)).2⟩

theorem flat_pair_length (rl : List (Nat × Nat)) :
    (flatMapN (fun r => [r.1, r.2]) rl).length = 2 * rl.length := by
  induction rl with
  | nil => rfl
  | cons x t ih =>
    rw [flatMapN, List.length_append, ih]
    simp
    omega

/-- C9: whenever `sheer_stone` serializes a grammar whose initial characters
are ASCII (as every sanitized corpus alphabet is), the result is exactly 512
bytes = 256 two-byte slots with `|initial_chars| + |rules| = 256`; slot
`i < |initial_chars|` holds the literal byte followed by a zero byte, slot
`|initial_chars| + j` holds the (left, right) byte pair of rule `j`, and
every rule is a two-element group (by construction, `forced = []` makes
every recorded group a pair and `assert len(r) == 2` passes) whose elements
both fit in one byte. -/
theorem c9_sheer_stone_layout (inits : List Nat) (rules : List (Nat × Nat))
    (ts : List Nat) (hA : ∀ c ∈ inits, c < 128)
    (hs : sheer_stone inits rules = some ts) :
    ts.length = 512 ∧ inits.length + rules.length = 256 ∧
    (∀ i, i < inits.length → getN ts (2 * i) = getN inits i ∧ getN ts (2 * i + 1) = 0) ∧
    (∀ j, j < rules.length →
      getN ts (2 * (inits.length + j)) = (pairN rules j).1 ∧
      getN ts (2 * (inits.length + j) + 1) = (pairN rules j).2) ∧
    (∀ r ∈ rules, r.1 < 256 ∧ r.2 < 256) := by
  rw [sheer_stone] at hs
  cases hp : packRules rules with
  | none =>
    rw [hp] at hs
    exact absurd hs (by simp)
  | some rb =>
    rw [hp] at hs
    dsimp only at hs
    by_cases h512 : (flatMapN (fun c => utf8Enc c ++ [0]) inits ++ rb).length = 512
    · rw [if_pos h512] at hs
      have hts : flatMapN (fun c => utf8Enc c ++ [0]) inits ++ rb = ts := Option.some.inj hs
      obtain ⟨hrb, hbounds⟩ := packRules_eq rules rb hp
      subst hrb
      have hlit := flat_lit_ascii inits hA
      rw [hlit] at hts h512
      have hlen : ts.length = 512 := by
        rw [← hts]
        exact h512
      have hnm : inits.length + rules.length = 256 := by
        rw [List.length_append, flat_lit_length, flat_pair_length] at h512
        omega
      refine ⟨hlen, hnm, ?_, ?_, hbounds⟩
      · intro i hi
        rw [← hts]
        exact flat_lit_getN inits _ i hi
      · intro j hj
        rw [← hts]
        have harr : 2 * (inits.length + j)
            = (flatMapN (fun c => [c, 0]) inits).length + 2 * j := by
          rw [flat_lit_length]
          omega
        have harr1 : 2 * (inits.length + j) + 1
            = (flatMapN (fun c => [c, 0]) inits).length + (2 * j + 1) := by
          rw [flat_lit_length]
          omega
        have hpg := flat_pair_getN rules [] j hj
        rw [List.append_nil] at hpg
        rw [harr1, harr, getN_append_right, getN_append_right]
        exact hpg
    · rw [if_neg h512] at hs
      exact absurd hs (by simp)

set_option maxRecDepth 100000 in
/-- Witness for C9 at the 256-slot grammar `initsW` / `rulesW`. -/
theorem c9_sheer_stone_layout_witness :
    (∀ c ∈ initsW, c < 128) ∧
      (tsW.length = 512 ∧ initsW.length + rulesW.length = 256 ∧
        (∀ i, i < initsW.length →
          getN tsW (2 * i) = getN initsW i ∧ getN tsW (2 * i + 1) = 0) ∧
        (∀ j, j < rulesW.length →
          getN tsW (2 * (initsW.length + j)) = (pairN rulesW j).1 ∧
          getN tsW (2 * (initsW.length + j) + 1) = (pairN rulesW j).2) ∧
        (∀ r ∈ rulesW, r.1 < 256 ∧ r.2 < 256)) :=
  ⟨by decide, c9_sheer_stone_layout initsW rulesW tsW (by decide) (by rfl)⟩

/-! ### C1, C3, C4, C6: evaluations of the code at concrete inputs -/

/-- C1 (code bug, evaluated at the failing input): for the corpus of three
single-character documents `"a"` and `max_tokens = 3`, the most frequent
adjacent pair is `(a, DELIMITER) = (1, 300)` and the scan records it as a
rule: the filter `if b'\0' not in group: break` on books.py line 93
compares the bytes object `b'\0'` against int symbol ids, is always true,
and so never rejects a delimiter pair.  The recorded rule `(1, 300)`
contains the delimiter symbol id 300, contradicting the claim. -/
theorem c1_delimiter_absorbed_eval :
    buildGrammar (.cons (.leaf [97]) (.cons (.leaf [97]) (.cons (.leaf [97]) .nil))) 3
      = some ([0, 97], [(1, 300)], [2, 2, 2]) ∧
      ((1 : Nat), CHUNKS_DELIMITER) ∈ [((1 : Nat), (300 : Nat))] :=
  ⟨rfl, by decide⟩

/-- C3 (code bug, evaluated at the failing input): `chainTbl` has at most
256 entries and every composite references strictly lower ids, yet
decompressing the single symbol 65 overflows the fixed stack
`stack = [0] * 64` of `text_decompress`: the expansion depth reaches 64 and
the write `stack[top + 1] = left` hits index 64 (Python IndexError).  The
capacity 64 does not exceed the `max_tokens`-bounded expansion depth the
claim relies on. -/
theorem c3_stack_overflow_eval :
    WfT chainTbl ∧ chainTbl.length ≤ 256 ∧
      text_decompress chainTbl [65] 1000 = .error .stackOverflow :=
  ⟨by decide, by decide, by decide⟩

/-- C4 (code bug, evaluated at the failing input): for the single-leaf
corpus `"a"` with `max_tokens = 5`, after the first merge the sequence is
the single symbol `[2]` and no adjacent pair remains; the builder has no
exhaustion guard — the `for` loop over `most_common()` simply leaves the
Python variable `group` at its previous value, so the stale group
`(1, 300)` is recorded twice more and the loop only stops when the budget
is full.  `compress` then raises (`none`): `inflate` cannot find a
delimiter in `[2]` because the delimiter was absorbed into rule 2.  The
builder neither stops early nor returns normally with fewer rules. -/
theorem c4_no_exhaustion_guard_eval :
    buildGrammar (.leaf [97]) 5 = some ([0, 97], [(1, 300), (1, 300), (1, 300)], [2]) ∧
      compressModel (.leaf [97]) 5 = none :=
  ⟨rfl, rfl⟩

/-- C6: for the corpus of two single-leaf documents `"aaab"` and
`max_tokens = |{'\0','a','b'}| + 1 = 4`: the most frequent pair `(a, a)`
(symbol pair `(1, 1)`, count 4 across both documents) is merged into the
single new rule with id 3, the rewritten sequence is
`[3, 1, 2, 300, 3, 1, 2, 300]` so each leaf's run is the 3-symbol sequence
`[3, 1, 2]`, and decompressing that run with the produced slot table yields
back exactly `"aaab"`. -/
theorem c6_aaab_end_to_end :
    buildGrammar (.cons (.leaf [97, 97, 97, 98]) (.cons (.leaf [97, 97, 97, 98]) .nil)) 4
      = some ([0, 97, 98], [(1, 1)], [3, 1, 2, 300, 3, 1, 2, 300]) ∧
      countOcc (pairsOf [1, 1, 1, 2, 300, 1, 1, 1, 2, 300]) (1, 1) = 4 ∧
      inflateD (.cons (.leaf [97, 97, 97, 98]) (.cons (.leaf [97, 97, 97, 98]) .nil))
          [3, 1, 2, 300, 3, 1, 2, 300]
        = some (.cons (.leaf [3, 1, 2]) (.cons (.leaf [3, 1, 2]) .nil), []) ∧
      text_decompress (mkTable [0, 97, 98] [(1, 1)]) [3, 1, 2] 100
        = .ok [[97, 97, 97, 98]] :=
  ⟨rfl, rfl, rfl, rfl⟩

/-! ### C8: the decompressor yields the newline-partition of the expansion -/

theorem expandFuel_mono (tbl : List (Nat × Nat)) :
    ∀ f g i, i < f → i < g → expandFuel tbl f i = expandFuel tbl g i := by
  intro f
  induction f with
  | zero => intro g i hf; omega
  | succ f ih =>
    intro g i hf hg
    cases g with
    | zero => omega
    | succ g =>
      rw [expandFuel, expandFuel]
      cases hp : getPair tbl i with
      | none => rfl
      | some p =>
        obtain ⟨l, r⟩ := p
        dsimp only
        by_cases hr : r = 0
        · rw [if_pos hr, if_pos hr]
        · rw [if_neg hr, if_neg hr]
          by_cases hlr : l < i ∧ r < i
          · rw [if_pos hlr, if_pos hlr, ih g l (by omega) (by omega),
              ih g r (by omega) (by omega)]
          · rw [if_neg hlr, if_neg hlr]

theorem expandD_literal (tbl : List (Nat × Nat)) (i l : Nat)
    (h : getPair tbl i = some (l, 0)) : expandD tbl i = [l] := by
  rw [expandD, expandFuel, h]
  dsimp only
  rw [if_pos rfl]

theorem expandD_composite (tbl : List (Nat × Nat)) (i l r : Nat)
    (h : getPair tbl i = some (l, r)) (hr : r ≠ 0) (hl : l < i) (hri : r < i) :
    expandD tbl i = expandD tbl l ++ expandD tbl r := by
  rw [expandD, expandFuel, h]
  dsimp only
  rw [if_neg hr, if_pos ⟨hl, hri⟩,
    expandFuel_mono tbl i (l + 1) l hl (by omega),
    expandFuel_mono tbl i (r + 1) r hri (by omega)]
  rfl

theorem getPair_bound (tbl : List (Nat × Nat)) :
    ∀ i p, getPair tbl i = some p → i < tbl.length ∧ pairN tbl i = p := by
  induction tbl with
  | nil => intro i p h; rw [getPair] at h; exact absurd h (by simp)
  | cons q t ih =>
    intro i p h
    cases i with
    | zero =>
      rw [getPair] at h
      exact ⟨by simp, Option.some.inj h⟩
    | succ i =>
      rw [getPair] at h
      obtain ⟨h1, h2⟩ := ih i p h
      exact ⟨by simpa using h1, h2⟩

theorem consume_append (a : List Nat) :
    ∀ (b out : List Nat) (paras : List (List Nat)),
      consume (a ++ b) out paras
        = consume b (consume a out paras).1 (consume a out paras).2 := by
  induction a with
  | nil => intro b out paras; rfl
  | cons c t ih =>
    intro b out paras
    rw [List.cons_append, consume, consume]
    by_cases hc : c = 10
    · rw [if_pos hc, if_pos hc, ih]
    · rw [if_neg hc, if_neg hc, ih]

theorem drain_consume (tbl : List (Nat × Nat)) (hwf : WfT tbl) :
    ∀ (fuel : Nat) (st : List Nat) (top : Nat) (out : List Nat)
      (paras : List (List Nat)) (st2 : List Nat) (top2 : Nat) (out2 : List Nat)
      (paras2 : List (List Nat)),
      drain tbl fuel st top out paras = .ok (st2, top2, out2, paras2) →
      (out2, paras2) = consume (flatMapN (expandD tbl) (takeRev st top)) out paras ∧
      st2.length = st.length := by
  intro fuel
  induction fuel with
  | zero =>
    intro st top out paras st2 top2 out2 paras2 h
    simp only [drain] at h
    exact absurd h (by simp)
  | succ fuel ih =>
    intro st top out paras st2 top2 out2 paras2 h
    cases top with
    | zero =>
      simp only [drain] at h
      have heq := Except.ok.inj h
      have hst : st = st2 := congrArg (fun q => q.1) heq
      have hout : out = out2 := congrArg (fun q => q.2.2.1) heq
      have hparas : paras = paras2 := congrArg (fun q => q.2.2.2) heq
      rw [takeRev, flatMapN, consume, ← hout, ← hparas, ← hst]
      exact ⟨rfl, rfl⟩
    | succ t =>
      simp only [drain] at h
      cases hg : getPair tbl (getN st t) with
      | none =>
        rw [hg] at h
        exact absurd h (by simp)
      | some p =>
        obtain ⟨l, r⟩ := p
        rw [hg] at h
        dsimp only at h
        have hexp : flatMapN (expandD tbl) (takeRev st (t + 1))
            = expandD tbl (getN st t) ++ flatMapN (expandD tbl) (takeRev st t) := by
          rw [takeRev, flatMapN]
        by_cases hr : r = 0
        · subst hr
          rw [if_pos rfl] at h
          have hlit : expandD tbl (getN st t) = [l] := expandD_literal tbl _ l hg
          rw [hexp, hlit]
          by_cases hl : l = 10
          · subst hl
            rw [if_pos rfl] at h
            by_cases hascii : out.all (fun c => decide (c < 128)) = true
            · rw [if_pos hascii] at h
              have hrec := ih st t [] (paras ++ [out]) st2 top2 out2 paras2 h
              rw [List.cons_append, List.nil_append, consume, if_pos rfl]
              exact hrec
            · rw [if_neg hascii] at h
              exact absurd h (by simp)
          · rw [if_neg hl] at h
            have hrec := ih st t (out ++ [l]) paras st2 top2 out2 paras2 h
            rw [List.cons_append, List.nil_append, consume, if_neg hl]
            exact hrec
        · rw [if_neg hr] at h
          rw [writeStack] at h
          by_cases ht : t < st.length
          · rw [if_pos ht] at h
            dsimp only at h
            rw [writeStack] at h
            by_cases ht1 : t + 1 < (setN st t r).length
            · rw [if_pos ht1] at h
              dsimp only at h
              have ht1' : t + 1 < st.length := by
                rw [length_setN] at ht1
                exact ht1
              have hrec := ih _ (t + 2) out paras st2 top2 out2 paras2 h
              have hpn := getPair_bound tbl _ _ hg
              have hcomp : expandD tbl (getN st t) = expandD tbl l ++ expandD tbl r := by
                have hb := hwf (getN st t) hpn.1 (by rw [hpn.2]; exact hr)
                rw [hpn.2] at hb
                exact expandD_composite tbl _ l r hg hr hb.1 hb.2
              have hstack : takeRev (setN (setN st t r) (t + 1) l) (t + 2)
                  = l :: r :: takeRev st t := by
                rw [takeRev, takeRev]
                rw [getN_setN_self (setN st t r) (t + 1) l ht1]
                rw [getN_setN_ne (setN st t r) (t + 1) t l (by omega)]
                rw [getN_setN_self st t r ht]
                rw [takeRev_setN_of_le (setN st t r) (t + 1) l t (by omega)]
                rw [takeRev_setN_of_le st t r t (by omega)]
              rw [hstack] at hrec
              refine ⟨?_, ?_⟩
              · rw [hexp, hcomp, hrec.1, flatMapN, flatMapN, List.append_assoc]
              · rw [hrec.2, length_setN, length_setN]
            · rw [if_neg ht1] at h
              exact absurd h (by simp)
          · rw [if_neg ht] at h
            exact absurd h (by simp)

theorem tdGo_expand (tbl : List (Nat × Nat)) (hwf : WfT tbl) :
    ∀ (input : List Nat) (fuel : Nat) (st out : List Nat)
      (paras res : List (List Nat)),
      tdGo tbl fuel input st out paras = .ok res →
      0 < st.length →
      res = (consume (flatMapN (expandD tbl) input) out paras).2
        ++ (if (consume (flatMapN (expandD tbl) input) out paras).1 = [] then []
            else [(consume (flatMapN (expandD tbl) input) out paras).1]) := by
  intro input
  induction input with
  | nil =>
    intro fuel st out paras res h _
    rw [tdGo] at h
    rw [flatMapN, consume]
    by_cases ho : out = []
    · rw [if_pos ho] at h
      rw [if_pos ho, List.append_nil]
      exact (Except.ok.inj h).symm
    · rw [if_neg ho] at h
      by_cases hascii : out.all (fun c => decide (c < 128)) = true
      · rw [if_pos hascii] at h
        rw [if_neg ho]
        exact (Except.ok.inj h).symm
      · rw [if_neg hascii] at h
        exact absurd h (by simp)
  | cons v rest ih =>
    intro fuel st out paras res h hst
    rw [tdGo, writeStack, if_pos hst] at h
    dsimp only at h
    cases hd : drain tbl fuel (setN st 0 v) 1 out paras with
    | error e =>
      rw [hd] at h
      exact absurd h (by simp)
    | ok q =>
      obtain ⟨st2, top2, out2, paras2⟩ := q
      rw [hd] at h
      dsimp only at h
      have hdc := drain_consume tbl hwf fuel (setN st 0 v) 1 out paras st2 top2 out2 paras2 hd
      have hst2 : 0 < st2.length := by
        rw [hdc.2, length_setN]
        exact hst
      have hrec := ih fuel st2 out2 paras2 res h hst2
      have hv : takeRev (setN st 0 v) 1 = [v] := by
        rw [takeRev, takeRev, getN_setN_self st 0 v hst]
      rw [hv] at hdc
      have hone : flatMapN (expandD tbl) [v] = expandD tbl v := by
        rw [flatMapN, flatMapN, List.append_nil]
      rw [hone] at hdc
      have hsplit : flatMapN (expandD tbl) (v :: rest)
          = expandD tbl v ++ flatMapN (expandD tbl) rest := by
        rw [flatMapN]
      rw [hsplit, consume_append, ← hdc.1]
      exact hrec

theorem splitSegs_ne_nil (l : List Nat) : splitSegs l ≠ [] := by
  cases l with
  | nil => simp [splitSegs]
  | cons c t =>
    rw [splitSegs]
    by_cases hc : c = 10
    · rw [if_pos hc]
      simp
    · rw [if_neg hc]
      cases splitSegs t <;> simp

theorem lastD_cons_of_ne_nil (x : List Nat) (S : List (List Nat)) (h : S ≠ []) :
    lastD (x :: S) = lastD S := by
  cases S with
  | nil => exact absurd rfl h
  | cons y t => rfl

theorem butLast_cons_of_ne_nil (x : List Nat) (S : List (List Nat)) (h : S ≠ []) :
    butLast (x :: S) = x :: butLast S := by
  cases S with
  | nil => exact absurd rfl h
  | cons y t => rfl

theorem splitSegs_no_newline (l : List Nat) (h : (10 : Nat) ∉ l) :
    splitSegs l = [l] := by
  induction l with
  | nil => rfl
  | cons c t ih =>
    rw [splitSegs, if_neg (by intro hc; exact h (by simp [hc])),
      ih (fun hx => h (by simp [hx]))]

theorem splitSegs_prepend (a : List Nat) (hA : (10 : Nat) ∉ a) :
    ∀ l, splitSegs (a ++ 10 :: l) = a :: splitSegs l := by
  induction a with
  | nil =>
    intro l
    rw [List.nil_append, splitSegs, if_pos rfl]
  | cons c t ih =>
    intro l
    have hc : c ≠ 10 := by intro hx; exact hA (by simp [hx])
    rw [List.cons_append, splitSegs, if_neg hc,
      ih (fun hx => hA (by simp [hx])) l]

theorem consume_split :
    ∀ (lits out : List Nat) (paras : List (List Nat)), (10 : Nat) ∉ out →
      consume lits out paras
        = (lastD (splitSegs (out ++ lits)),
           paras ++ butLast (splitSegs (out ++ lits))) := by
  intro lits
  induction lits with
  | nil =>
    intro out paras hout
    rw [consume, List.append_nil, splitSegs_no_newline out hout]
    rw [lastD, butLast, List.append_nil]
  | cons c t ih =>
    intro out paras hout
    rw [consume]
    by_cases hc : c = 10
    · subst hc
      rw [if_pos rfl, splitSegs_prepend out hout t]
      have hne := splitSegs_ne_nil t
      rw [lastD_cons_of_ne_nil out _ hne, butLast_cons_of_ne_nil out _ hne]
      rw [ih [] (paras ++ [out]) (by simp)]
      rw [List.nil_append, List.append_assoc]
      rfl
    · rw [if_neg hc]
      have hout2 : (10 : Nat) ∉ out ++ [c] := by
        intro hx
        rcases List.mem_append.mp hx with h1 | h1
        · exact hout h1
        · simp at h1
          exact hc h1.symm
      rw [ih (out ++ [c]) paras hout2]
      rw [List.append_assoc, List.singleton_append]

/-- C8: whenever `text_decompress` runs to completion (in particular the
fixed stack never overflows and every flushed buffer decodes as ASCII), the
paragraphs it yields are exactly the newline-partition of the full literal
expansion of the input: every newline-terminated segment in order (a
newline literal flushes the buffer even when empty), plus the trailing
segment if and only if it is nonempty — so rejoining the paragraphs with a
newline after each flushed one reconstructs the expansion exactly.  The
table is assumed well-formed (composite slots reference strictly lower
ids), which is what makes the literal expansion well-defined and is the
invariant the builder guarantees. -/
theorem c8_paragraph_partition (tbl : List (Nat × Nat)) (input : List Nat)
    (fuel : Nat) (paras : List (List Nat)) (hwf : WfT tbl)
    (hok : text_decompress tbl input fuel = .ok paras) :
    paras = splitParas (flatMapN (expandD tbl) input) := by
  rw [text_decompress] at hok
  have hres := tdGo_expand tbl hwf input fuel (List.replicate 64 0) [] [] paras hok (by simp)
  have hcs := consume_split (flatMapN (expandD tbl) input) [] [] (by simp)
  rw [List.nil_append] at hcs
  rw [hcs] at hres
  dsimp only at hres
  rw [List.nil_append] at hres
  rw [hres]
  rfl

/-- Witness for C8: table with literal 'a' (slot 0), literal newline
(slot 1) and composite "a\n" (slot 2); input `[2, 0]` expands to
"a\na" and decompresses to the paragraphs ["a", "a"]. -/
theorem c8_paragraph_partition_witness :
    WfT [(97, 0), (10, 0), (0, 1)] ∧
      ([[97], [97]] : List (List Nat))
        = splitParas (flatMapN (expandD [(97, 0), (10, 0), (0, 1)]) [2, 0]) :=
  ⟨by decide,
    c8_paragraph_partition [(97, 0), (10, 0), (0, 1)] [2, 0] 100 [[97], [97]]
      (by decide) (by rfl)⟩
